import Mathlib

/-!
Shallow embedding of the Huffman archiver core (`src/main.py`).

Strings are modelled as `List Char`.  Python `dict`s (insertion-ordered,
assignment updates in place or appends) are modelled as association lists
with `dictSet` / `dictGet?`.  The CPython `heapq` routines (`heappush`,
`heappop`, `_siftdown`, `_siftup`) are translated literally; their loops
use an explicit counter argument that provably never runs out (each loop
of CPython's sift routines performs at most `pos` resp. `endpos` steps),
so the fuel-0 branches coincide with the loop-exit actions.

File I/O is outside the embedding: `compress_file` takes the text that
Python reads from the input file and returns the message string together
with the pair of file contents it writes (`none` when it writes nothing);
`decompress_file` takes the contents of the `.compressed` payload file and
of the `.encoding` table file and returns the message string together with
the decompressed content it writes (`none` when it returns early and
writes nothing).  The `os.path.isfile` guards and tkinter GUI are I/O glue
and are not part of the embedding.
-/

namespace Archiver

/-- Python `dict` lookup (`k in d` / `d[k]`): first (unique) matching key. -/
def dictGet? {α β : Type} [DecidableEq α] : List (α × β) → α → Option β
  | [], _ => none
  | (k', v) :: rest, k => if k' = k then some v else dictGet? rest k

/-- Python `d[k] = v`: update the existing entry in place, else append. -/
def dictSet {α β : Type} [DecidableEq α] : List (α × β) → α → β → List (α × β)
  | [], k, v => [(k, v)]
  | (k', v') :: rest, k, v =>
    if k' = k then (k, v) :: rest else (k', v') :: dictSet rest k v

/-- `defaultdict(int)` increment `d[c] += 1`: bump in place or append `(c, 1)`. -/
def bumpCount : List (Char × Nat) → Char → List (Char × Nat)
  | [], c => [(c, 1)]
  | (k, n) :: rest, c =>
    if k = c then (k, n + 1) :: rest else (k, n) :: bumpCount rest c

/-- `build_frequency_table` from `src/main.py`: fold the `for char in data`
loop over the input. -/
def build_frequency_table (data : List Char) : List (Char × Nat) :=
  data.foldl bumpCount []

/-- `HuffmanNode`: the source only ever builds leaves (`character` set, no
children) and merged nodes (`character is None`, two children), so the
node is a tagged variant. -/
inductive HuffmanNode where
  | leaf (character : Char) (frequency : Nat)
  | internal (frequency : Nat) (left right : HuffmanNode)
deriving DecidableEq

/-- Placeholder for out-of-range list reads inside the heap routines; such
reads would raise `IndexError` in Python and are never reached. -/
instance : Inhabited HuffmanNode := ⟨HuffmanNode.leaf 'a' 0⟩

/-- The `frequency` field of a node. -/
def HuffmanNode.frequency : HuffmanNode → Nat
  | .leaf _ f => f
  | .internal f _ _ => f

/-- `HuffmanNode.__lt__`: nodes compare by frequency only. -/
def HuffmanNode.lt (a b : HuffmanNode) : Prop :=
  a.frequency < b.frequency

instance : DecidablePred fun p : HuffmanNode × HuffmanNode => HuffmanNode.lt p.1 p.2 :=
  fun p => inferInstanceAs (Decidable (p.1.frequency < p.2.frequency))

/-- CPython `heapq._siftdown`'s `while pos > startpos` loop.  The counter
starts at `pos` and satisfies `counter ≥ pos` throughout (each step moves to
`(pos - 1) / 2 ≤ pos - 1`), so when it reaches 0 we have `pos = 0` and the
loop condition is false: the base case is exactly the loop exit. -/
def siftdownAux (newitem : HuffmanNode) (startpos : Nat) :
    Nat → Nat → List HuffmanNode → List HuffmanNode
  | 0, pos, heap => heap.set pos newitem
  | fuel + 1, pos, heap =>
    if startpos < pos then
      let parentpos := (pos - 1) / 2
      let parent := heap.getD parentpos default
      if newitem.frequency < parent.frequency then
        siftdownAux newitem startpos fuel parentpos (heap.set pos parent)
      else
        heap.set pos newitem
    else
      heap.set pos newitem

/-- CPython `heapq._siftdown(heap, startpos, pos)`. -/
def siftdown (heap : List HuffmanNode) (startpos pos : Nat) : List HuffmanNode :=
  siftdownAux (heap.getD pos default) startpos pos pos heap

/-- CPython `heapq._siftup`'s `while childpos < endpos` loop, returning the
heap and the final `pos`.  `pos` strictly increases and stays below
`endpos`, so `endpos` steps of counter suffice; at counter 0 the loop
condition is already false and the base case is the loop exit. -/
def siftupLoop (newitem : HuffmanNode) (endpos : Nat) :
    Nat → Nat → List HuffmanNode → List HuffmanNode × Nat
  | 0, pos, heap => (heap, pos)
  | fuel + 1, pos, heap =>
    let childpos := 2 * pos + 1
    if childpos < endpos then
      let rightpos := childpos + 1
      let childpos :=
        if rightpos < endpos ∧
            ¬ (heap.getD childpos default).frequency < (heap.getD rightpos default).frequency then
          rightpos
        else childpos
      siftupLoop newitem endpos fuel childpos (heap.set pos (heap.getD childpos default))
    else
      (heap, pos)

/-- CPython `heapq._siftup(heap, pos)`: bubble the child chain up, then
place `newitem` and sift it down towards `startpos = pos`. -/
def siftup (heap : List HuffmanNode) (pos : Nat) : List HuffmanNode :=
  let endpos := heap.length
  let newitem := heap.getD pos default
  match siftupLoop newitem endpos endpos pos heap with
  | (heap₁, pos₁) => siftdownAux newitem pos pos₁ pos₁ heap₁

/-- CPython `heapq.heappush`: append then sift down from the last slot. -/
def heappush (heap : List HuffmanNode) (item : HuffmanNode) : List HuffmanNode :=
  let heap := heap ++ [item]
  siftdown heap 0 (heap.length - 1)

/-- CPython `heapq.heappop`: pop the last element; if the heap is still
non-empty, swap it into the root and sift up.  Popping an empty heap raises
`IndexError` in Python and never happens in `build_huffman_tree`. -/
def heappop (heap : List HuffmanNode) : HuffmanNode × List HuffmanNode :=
  match heap with
  | [] => (default, [])
  | [lastelt] => (lastelt, [])
  | x :: y :: rest =>
    let lastelt := (x :: y :: rest).getLastD default
    let shrunk := (x :: y :: rest).dropLast
    let returnitem := shrunk.headD default
    (returnitem, siftup (shrunk.set 0 lastelt) 0)

/-- The `while len(heap) > 1` merge loop of `build_huffman_tree`.  Each
iteration removes two nodes and pushes one, so the length drops by one;
starting the counter at `heap.length` it reaches the exit condition before
hitting 0, and at 0 both branches return `heap[0]`. -/
def mergeLoop : Nat → List HuffmanNode → HuffmanNode
  | 0, heap => heap.headD default
  | fuel + 1, heap =>
    if 1 < heap.length then
      match heappop heap with
      | (left_node, heap₁) =>
        match heappop heap₁ with
        | (right_node, heap₂) =>
          let merged_node :=
            HuffmanNode.internal (left_node.frequency + right_node.frequency)
              left_node right_node
          mergeLoop fuel (heappush heap₂ merged_node)
    else
      heap.headD default

/-- `build_huffman_tree` from `src/main.py`: push one leaf per table entry
(in insertion order), return `None` for an empty heap, else merge down to
a single root. -/
def build_huffman_tree (frequency_table : List (Char × Nat)) : Option HuffmanNode :=
  let heap := frequency_table.foldl (fun h kv => heappush h (HuffmanNode.leaf kv.1 kv.2)) []
  if heap.isEmpty then none
  else some (mergeLoop heap.length heap)

/-- The nested `traverse` of `build_encoding_table`: at a leaf record the
accumulated code (`encoding_table[node.character] = code`), else visit the
left child with `code + "0"` first, then the right child with `code + "1"`,
threading the mutable dict. -/
def traverse : HuffmanNode → List Char → List (Char × List Char) → List (Char × List Char)
  | .leaf c _, code, table => dictSet table c code
  | .internal _ l r, code, table =>
    traverse r (code ++ ['1']) (traverse l (code ++ ['0']) table)

/-- `build_encoding_table` from `src/main.py`. -/
def build_encoding_table (huffman_tree : HuffmanNode) : List (Char × List Char) :=
  traverse huffman_tree [] []

/-- The `compressed_data += encoding_table[char]` loop of `compress_file`.
A symbol missing from the table would raise `KeyError` in Python, modelled
as `none`. -/
def encode_data (encoding_table : List (Char × List Char)) (data : List Char) :
    Option (List Char) :=
  data.foldlM (fun acc c => (dictGet? encoding_table c).map (fun code => acc ++ code)) []

/-- The table-file writing loop of `compress_file`: one line
`f"{char}:{code}\n"` per entry, in dict order. -/
def serialize_table (encoding_table : List (Char × List Char)) : List Char :=
  encoding_table.foldl (fun acc e => acc ++ [e.1, ':'] ++ e.2 ++ ['\n']) []

/-- `compress_file` on the text read from the input file.  Result: `none`
for an uncaught `KeyError`; otherwise the returned message together with
`some (payload, table file)` when the two output files are written and
`none` when the function returns the empty-string sentinel early and
writes nothing. -/
def compress_file (data : List Char) :
    Option (String × Option (List Char × List Char)) :=
  if data.isEmpty then some ("", none)
  else
    match build_huffman_tree (build_frequency_table data) with
    | none => some ("", none)
    | some huffman_tree =>
      let encoding_table := build_encoding_table huffman_tree
      match encode_data encoding_table data with
      | none => none
      | some compressed_data =>
        some ("Операция выполнена успешно!",
          some (compressed_data, serialize_table encoding_table))

/-- Python's whitespace test used by `str.strip()` (ASCII range). -/
def isPySpace (c : Char) : Bool :=
  c = ' ' || c = '\t' || c = '\n' || c = '\r' || c = Char.ofNat 11 || c = Char.ofNat 12

/-- `line.strip()`: drop whitespace from both ends. -/
def pyStrip (s : List Char) : List Char :=
  ((s.dropWhile isPySpace).reverse.dropWhile isPySpace).reverse

/-- Iteration chunks of `for line in file`: split after each newline,
keeping the terminator (which `strip` then removes); a final chunk without
a terminator is kept, an empty tail is not a line. -/
def pyLinesAux (acc : List Char) : List Char → List (List Char)
  | [] => if acc.isEmpty then [] else [acc.reverse]
  | c :: rest =>
    if c = '\n' then (acc.reverse ++ ['\n']) :: pyLinesAux [] rest
    else pyLinesAux (c :: acc) rest

/-- `for line in file` over a file's text. -/
def pyLines (s : List Char) : List (List Char) :=
  pyLinesAux [] s

/-- `s.split(":")`: Python splits on every separator and yields `[""]` for
the empty string. -/
def pySplit (sep : Char) : List Char → List (List Char)
  | [] => [[]]
  | c :: rest =>
    match pySplit sep rest with
    | [] => [[]]
    | first :: others =>
      if c = sep then [] :: first :: others else (c :: first) :: others

/-- The table-file reading loop of `decompress_file`: per line, strip,
split on `":"`; when exactly two parts result, `encoding_table[code] = char`
(keyed by the code, valued by the symbol text, possibly empty or many
characters); any other line is skipped. -/
def parse_encoding_table (table_file : List Char) : List (List Char × List Char) :=
  (pyLines table_file).foldl
    (fun encoding_table line =>
      match pySplit ':' (pyStrip line) with
      | [c, code] => dictSet encoding_table code c
      | _ => encoding_table)
    []

/-- The bit-consuming loop of `decompress_file`: state is
`(decoded_data, current_code)`; each bit extends the accumulator, and a
table hit emits the mapped text and resets the accumulator.  Leftover
accumulator bits at the end are simply left in the state. -/
def decode_loop (encoding_table : List (List Char × List Char)) (bits : List Char) :
    List Char × List Char :=
  bits.foldl
    (fun s bit =>
      let current_code := s.2 ++ [bit]
      match dictGet? encoding_table current_code with
      | some c => (s.1 ++ c, [])
      | none => (s.1, current_code))
    ([], [])

/-- `decompress_file` on the contents of the `.compressed` payload file and
the `.encoding` table file.  Result: the returned message together with
`some decoded` when the decompressed file is written, `none` when the
function returns the empty-string sentinel early and writes nothing. -/
def decompress_file (compressed_data table_file : List Char) :
    String × Option (List Char) :=
  let encoding_table := parse_encoding_table table_file
  if compressed_data.isEmpty then ("", none)
  else
    ("Операция выполнена успешно!", some (decode_loop encoding_table compressed_data).1)

/-- Root-to-leaf paths of a tree below prefix `code`, in traversal order:
the pairs that `traverse`'s dict assignments write. -/
def leafPaths : HuffmanNode → List Char → List (Char × List Char)
  | .leaf c _, code => [(c, code)]
  | .internal _ l r, code =>
    leafPaths l (code ++ ['0']) ++ leafPaths r (code ++ ['1'])

/-- The prefix-free property of a code table: no entry's code is a proper
prefix of another entry's code. -/
def prefixFreeTable (table : List (Char × List Char)) : Prop :=
  ∀ p ∈ table, ∀ q ∈ table, p.1 ≠ q.1 →
    ¬ (p.2.isPrefixOf q.2 = true ∧ p.2 ≠ q.2)

/-- Concrete `.encoding` file `"a:00\nb:01\n"` whose payload below is
truncated mid-codeword. -/
def tableFileC3 : List Char := ['a', ':', '0', '0', '\n', 'b', ':', '0', '1', '\n']

/-- Concrete `.encoding` file `"a:0\nb:0\n"` mapping two symbols to the
same code. -/
def tableFileC4 : List Char := ['a', ':', '0', '\n', 'b', ':', '0', '\n']

/-- Concrete `.encoding` file `"garbage\na:0\n"` whose first line is not a
symbol:code pair. -/
def tableFileC7 : List Char :=
  ['g', 'a', 'r', 'b', 'a', 'g', 'e', '\n', 'a', ':', '0', '\n']

/-- Bumping a key makes its lookup one larger than before (0 if absent). -/
theorem dictGet_bumpCount_self (t : List (Char × Nat)) (c : Char) :
    dictGet? (bumpCount t c) c = some ((dictGet? t c).getD 0 + 1) := by
  induction t with
  | nil => simp [bumpCount, dictGet?]
  | cons kv rest ih =>
    obtain ⟨k, n⟩ := kv
    by_cases h : k = c
    · subst h; simp [bumpCount, dictGet?]
    · simp [bumpCount, dictGet?, h, ih]

/-- Bumping a key leaves every other key's lookup unchanged. -/
theorem dictGet_bumpCount_other (t : List (Char × Nat)) (c c' : Char) (h : c' ≠ c) :
    dictGet? (bumpCount t c) c' = dictGet? t c' := by
  induction t with
  | nil => simp [bumpCount, dictGet?, Ne.symm h]
  | cons kv rest ih =>
    obtain ⟨k, n⟩ := kv
    by_cases hk : k = c
    · subst hk; simp [bumpCount, dictGet?, Ne.symm h]
    · simp [bumpCount, dictGet?, hk, ih]

/-- Bumping a key increases the sum of the counts by one. -/
theorem sum_bumpCount (t : List (Char × Nat)) (c : Char) :
    ((bumpCount t c).map Prod.snd).sum = (t.map Prod.snd).sum + 1 := by
  induction t with
  | nil => simp [bumpCount]
  | cons kv rest ih =>
    obtain ⟨k, n⟩ := kv
    by_cases h : k = c
    · subst h; simp [bumpCount]; omega
    · simp [bumpCount, h, ih]; omega

/-- Bumping keeps the key list if the key is present, else appends it. -/
theorem fst_bumpCount (t : List (Char × Nat)) (c : Char) :
    (bumpCount t c).map Prod.fst =
      if (dictGet? t c).isSome then t.map Prod.fst else t.map Prod.fst ++ [c] := by
  induction t with
  | nil => simp [bumpCount, dictGet?]
  | cons kv rest ih =>
    obtain ⟨k, n⟩ := kv
    by_cases h : k = c
    · subst h; simp [bumpCount, dictGet?]
    · simp only [bumpCount, dictGet?, h, if_false, List.map_cons, ih]
      by_cases h2 : (dictGet? rest c).isSome <;> simp [h2]

/-- A lookup misses exactly when the key is not among the dict's keys. -/
theorem dictGet_none_iff (t : List (Char × Nat)) (c : Char) :
    dictGet? t c = none ↔ c ∉ t.map Prod.fst := by
  induction t with
  | nil => simp [dictGet?]
  | cons kv rest ih =>
    obtain ⟨k, n⟩ := kv
    by_cases h : k = c
    · subst h; simp [dictGet?]
    · simp [dictGet?, h, ih, Ne.symm h]

/-- Bumping preserves distinctness of the keys. -/
theorem nodup_bumpCount (t : List (Char × Nat)) (c : Char)
    (h : (t.map Prod.fst).Nodup) : ((bumpCount t c).map Prod.fst).Nodup := by
  rw [fst_bumpCount]
  by_cases hs : (dictGet? t c).isSome
  · simpa [hs] using h
  · have hnone : dictGet? t c = none := by
      cases hd : dictGet? t c
      · rfl
      · simp [hd] at hs
    have hmem : c ∉ t.map Prod.fst := (dictGet_none_iff t c).mp hnone
    rw [hnone]
    simp only [Option.isSome_none, Bool.false_eq_true, if_false]
    rw [List.nodup_append]
    exact ⟨h, by simp, List.disjoint_singleton.mpr hmem⟩

/-- Appending one character to the input performs one bump. -/
theorem build_frequency_table_append (xs : List Char) (x : Char) :
    build_frequency_table (xs ++ [x]) = bumpCount (build_frequency_table xs) x := by
  simp [build_frequency_table, List.foldl_append]

/-- Looking a symbol up in the frequency table yields its occurrence count
when it occurs in the input, and misses otherwise. -/
theorem freq_lookup (data : List Char) (c : Char) :
    dictGet? (build_frequency_table data) c =
      if data.count c = 0 then none else some (data.count c) := by
  induction data using List.reverseRecOn with
  | nil => simp [build_frequency_table, dictGet?]
  | append_singleton xs x ih =>
    rw [build_frequency_table_append]
    by_cases h : x = c
    · subst h
      rw [dictGet_bumpCount_self, ih]
      by_cases h0 : xs.count x = 0 <;>
        simp [h0, List.count_append]
    · rw [dictGet_bumpCount_other _ _ _ (Ne.symm h), ih]
      have h1 : List.count c [x] = 0 :=
        List.count_eq_zero_of_not_mem (by simp [Ne.symm h])
      simp [List.count_append, h1]

/-- The counts in the frequency table sum to the input length. -/
theorem freq_sum (data : List Char) :
    ((build_frequency_table data).map Prod.snd).sum = data.length := by
  induction data using List.reverseRecOn with
  | nil => simp [build_frequency_table]
  | append_singleton xs x ih =>
    rw [build_frequency_table_append, sum_bumpCount, ih]
    simp

/-- The keys of the frequency table are distinct. -/
theorem freq_keys_nodup (data : List Char) :
    ((build_frequency_table data).map Prod.fst).Nodup := by
  induction data using List.reverseRecOn with
  | nil => simp [build_frequency_table]
  | append_singleton xs x ih =>
    rw [build_frequency_table_append]
    exact nodup_bumpCount _ _ ih

/-- C8: `build_frequency_table` maps exactly the symbols occurring in the
input (lookup hits iff the count is positive) to their occurrence counts,
the counts sum to the input length, the keys are distinct, and the empty
input yields the empty table; the function is total (no error
conditions). -/
theorem C8_frequency_table_spec (data : List Char) :
    (∀ c : Char, dictGet? (build_frequency_table data) c =
        if data.count c = 0 then none else some (data.count c))
    ∧ ((build_frequency_table data).map Prod.snd).sum = data.length
    ∧ ((build_frequency_table data).map Prod.fst).Nodup
    ∧ build_frequency_table [] = [] :=
  ⟨fun c => freq_lookup data c, freq_sum data, freq_keys_nodup data, rfl⟩

/-- C1: the round-trip claim fails on the single-symbol input `"aaaa"`:
`compress_file` succeeds (success message, empty payload, table file
`"a:\n"`), but `decompress_file` on the produced container returns the
empty-string sentinel and writes nothing, so `"aaaa"` is not reproduced. -/
theorem C1_roundtrip_fails_on_aaaa :
    compress_file ['a', 'a', 'a', 'a']
        = some ("Операция выполнена успешно!", some ([], ['a', ':', '\n']))
    ∧ decompress_file [] ['a', ':', '\n'] = ("", none) :=
  ⟨rfl, rfl⟩

/-- C2: for the single-symbol input `"aaaa"`, the code table built from the
Huffman tree maps `'a'` to the empty bitstring, not a non-empty one. -/
theorem C2_single_symbol_empty_code :
    (build_huffman_tree (build_frequency_table ['a', 'a', 'a', 'a'])).map build_encoding_table
      = some [('a', ([] : List Char))] :=
  rfl

/-- C3: on the payload `"000"` with table `"a:00\nb:01\n"` the decoder's
accumulator is the non-empty `"0"` at end of input, yet `decompress_file`
reports success and writes the partial output `"a"`, silently dropping the
leftover bit instead of failing with TruncatedStream. -/
theorem C3_truncation_not_detected :
    decompress_file ['0', '0', '0'] tableFileC3
        = ("Операция выполнена успешно!", some ['a'])
    ∧ (decode_loop (parse_encoding_table tableFileC3) ['0', '0', '0']).2 = ['0'] :=
  ⟨rfl, rfl⟩

/-- C4: with the table section `"a:0\nb:0\n"` mapping two symbols to the
same code, the later entry silently overwrites the earlier one and
`decompress_file` reports success with decoded output `"b"` instead of
failing with DuplicateCode. -/
theorem C4_duplicate_code_not_detected :
    parse_encoding_table tableFileC4 = [(['0'], ['b'])]
    ∧ decompress_file ['0'] tableFileC4 = ("Операция выполнена успешно!", some ['b']) :=
  ⟨rfl, rfl⟩

/-- C7: with the table section `"garbage\na:0\n"` whose first entry line is
not parseable into a symbol:code pair, `decompress_file` silently skips
that line and reports success with output `"a"` instead of failing with
MalformedContainer. -/
theorem C7_malformed_line_skipped :
    parse_encoding_table tableFileC7 = [(['0'], ['a'])]
    ∧ decompress_file ['0'] tableFileC7 = ("Операция выполнена успешно!", some ['a']) :=
  ⟨rfl, rfl⟩

/-- C6 counterexample: the value `compress_file` returns for the empty
input is the empty string — the silent empty-result sentinel it also uses
for other failures — not an explicit EmptyInput error value, contrary to
the claim. -/
theorem C6_empty_input_returns_sentinel :
    (compress_file []).map Prod.fst = some "" :=
  rfl

/-- C6 (amended): compressing the empty input yields no container and
writes no files, and the failure is signalled by returning the
empty-string sentinel rather than an explicit error value. -/
theorem C6_empty_input_no_container :
    compress_file [] = some ("", none) :=
  rfl

/-- C10: when the compressed payload file is empty, `decompress_file`
returns the empty-string sentinel and writes no decompressed output file,
whatever the table file holds. -/
theorem C10_empty_payload_sentinel (table_file : List Char) :
    decompress_file [] table_file = ("", none) :=
  rfl

/-- C9: building the Huffman tree and then the code table is
deterministic — two runs on equal frequency tables yield equal code
tables. -/
theorem C9_pipeline_deterministic (t₁ t₂ : List (Char × Nat)) (h : t₁ = t₂) :
    (build_huffman_tree t₁).map build_encoding_table
      = (build_huffman_tree t₂).map build_encoding_table := by
  rw [h]

/-- A successful `isPrefixOf` test exhibits the missing suffix. -/
theorem isPrefixOf_exists : ∀ (p w : List Char), p.isPrefixOf w = true → ∃ t, p ++ t = w
  | [], w, _ => ⟨w, rfl⟩
  | _ :: _, [], h => by simp [List.isPrefixOf] at h
  | a :: p, b :: w, h => by
    simp only [List.isPrefixOf, Bool.and_eq_true, beq_iff_eq] at h
    obtain ⟨t, ht⟩ := isPrefixOf_exists p w h.2
    exact ⟨t, by rw [h.1, List.cons_append, ht]⟩

/-- Every code recorded below a node extends that node's path prefix. -/
theorem leafPaths_extend (t : HuffmanNode) :
    ∀ (p : List Char) (c : Char) (w : List Char),
      (c, w) ∈ leafPaths t p → ∃ s, w = p ++ s := by
  induction t with
  | leaf ch fr =>
    intro p c w h
    simp [leafPaths] at h
    exact ⟨[], by simp [h.2]⟩
  | internal fr l r ihl ihr =>
    intro p c w h
    simp only [leafPaths, List.mem_append] at h
    rcases h with h | h
    · obtain ⟨s, hs⟩ := ihl (p ++ ['0']) c w h
      exact ⟨'0' :: s, by simp [hs]⟩
    · obtain ⟨s, hs⟩ := ihr (p ++ ['1']) c w h
      exact ⟨'1' :: s, by simp [hs]⟩

/-- Codes of two distinct symbols recorded below the same node are
incomparable: neither extends the other (left codes pass through the bit
`'0'` where right codes pass through `'1'`). -/
theorem leafPaths_incomparable (t : HuffmanNode) :
    ∀ (p : List Char) (c₁ c₂ : Char) (w₁ w₂ : List Char),
      (c₁, w₁) ∈ leafPaths t p → (c₂, w₂) ∈ leafPaths t p → c₁ ≠ c₂ →
      ∀ s, w₁ ++ s ≠ w₂ := by
  induction t with
  | leaf ch fr =>
    intro p c₁ c₂ w₁ w₂ h₁ h₂ hne s
    simp [leafPaths] at h₁ h₂
    exact absurd (h₁.1.trans h₂.1.symm) hne
  | internal fr l r ihl ihr =>
    intro p c₁ c₂ w₁ w₂ h₁ h₂ hne s heq
    simp only [leafPaths, List.mem_append] at h₁ h₂
    rcases h₁ with h₁ | h₁ <;> rcases h₂ with h₂ | h₂
    · exact ihl _ _ _ _ _ h₁ h₂ hne s heq
    · obtain ⟨s₁, hs₁⟩ := leafPaths_extend l _ _ _ h₁
      obtain ⟨s₂, hs₂⟩ := leafPaths_extend r _ _ _ h₂
      rw [hs₁, hs₂] at heq
      simp only [List.append_assoc, List.singleton_append, List.cons_append] at heq
      have h01 := List.append_cancel_left heq
      simp at h01
    · obtain ⟨s₁, hs₁⟩ := leafPaths_extend r _ _ _ h₁
      obtain ⟨s₂, hs₂⟩ := leafPaths_extend l _ _ _ h₂
      rw [hs₁, hs₂] at heq
      simp only [List.append_assoc, List.singleton_append, List.cons_append] at heq
      have h10 := List.append_cancel_left heq
      simp at h10
    · exact ihr _ _ _ _ _ h₁ h₂ hne s heq

/-- Every entry of `dictSet d k v` is the new pair or an old entry. -/
theorem mem_dictSet {α β : Type} [DecidableEq α] :
    ∀ (d : List (α × β)) (k : α) (v : β) (e : α × β),
      e ∈ dictSet d k v → e = (k, v) ∨ e ∈ d := by
  intro d k v
  induction d with
  | nil => intro e he; simpa [dictSet] using he
  | cons kv rest ih =>
    intro e he
    obtain ⟨k', v'⟩ := kv
    by_cases h : k' = k
    · simp only [dictSet, h, if_true, List.mem_cons] at he
      rcases he with he | he
      · left; exact he
      · right; simp [he]
    · simp only [dictSet, h, if_false, List.mem_cons] at he
      rcases he with he | he
      · right; simp [he]
      · rcases ih e he with he' | he'
        · left; exact he'
        · right; simp [he']

/-- Every entry written by `traverse` is a recorded root-to-leaf path or an
entry of the incoming dict. -/
theorem mem_traverse (t : HuffmanNode) :
    ∀ (p : List Char) (tbl : List (Char × List Char)) (e : Char × List Char),
      e ∈ traverse t p tbl → e ∈ leafPaths t p ∨ e ∈ tbl := by
  induction t with
  | leaf c f =>
    intro p tbl e he
    simp only [traverse] at he
    rcases mem_dictSet tbl c p e he with h | h
    · left; simp [leafPaths, h]
    · right; exact h
  | internal f l r ihl ihr =>
    intro p tbl e he
    simp only [traverse] at he
    rcases ihr _ _ e he with h | h
    · left; simp [leafPaths, h]
    · rcases ihl _ _ e h with h2 | h2
      · left; simp [leafPaths, h2]
      · right; exact h2

/-- C5: every code table built by `build_encoding_table` from a tree that
`build_huffman_tree` returns for a non-empty frequency table is
prefix-free: no symbol's code is a proper prefix of another symbol's
code. -/
theorem C5_encoding_prefix_free (ft : List (Char × Nat)) (tree : HuffmanNode)
    (_hft : ft ≠ []) (_htree : build_huffman_tree ft = some tree) :
    prefixFreeTable (build_encoding_table tree) := by
  rintro ⟨c₁, w₁⟩ hp ⟨c₂, w₂⟩ hq hne ⟨hpre, _⟩
  obtain ⟨s, hs⟩ := isPrefixOf_exists _ _ hpre
  have hp' : (c₁, w₁) ∈ leafPaths tree [] := by
    rcases mem_traverse tree [] [] (c₁, w₁) hp with h | h
    · exact h
    · simp at h
  have hq' : (c₂, w₂) ∈ leafPaths tree [] := by
    rcases mem_traverse tree [] [] (c₂, w₂) hq with h | h
    · exact h
    · simp at h
  exact leafPaths_incomparable tree [] c₁ c₂ w₁ w₂ hp' hq' hne s hs

/-- Witness for C5 at the frequency table `[('a', 1), ('b', 2)]`, whose
tree is `internal 3 (leaf 'a' 1) (leaf 'b' 2)`. -/
theorem C5_encoding_prefix_free_witness :
    ([(('a' : Char), (1 : Nat)), ('b', 2)] ≠ ([] : List (Char × Nat)))
    ∧ prefixFreeTable (build_encoding_table
        (HuffmanNode.internal 3 (.leaf 'a' 1) (.leaf 'b' 2))) :=
  ⟨by decide,
    C5_encoding_prefix_free [('a', 1), ('b', 2)]
      (HuffmanNode.internal 3 (.leaf 'a' 1) (.leaf 'b' 2)) (by decide) (by decide)⟩

/-- Witness for C9 at the table `[('a', 1), ('b', 2)]`. -/
theorem C9_pipeline_deterministic_witness :
    ([(('a' : Char), (1 : Nat)), ('b', 2)] = [('a', 1), ('b', 2)])
    ∧ (build_huffman_tree [('a', 1), ('b', 2)]).map build_encoding_table
        = (build_huffman_tree [('a', 1), ('b', 2)]).map build_encoding_table :=
  ⟨rfl, C9_pipeline_deterministic [('a', 1), ('b', 2)] [('a', 1), ('b', 2)] rfl⟩

end Archiver
